import Mathlib

/-!
RoscoScreen: turn advancement and round termination.

A shallow embedding of the state logic of `src/frontend/screens/RoscoScreen.js`
(the letter wheel of a pasapalabra round) together with the properties
that the specification states about it.

Modelling conventions.

* The React state of the component is the record `State`; an event handler
  (a button press, one firing of the interval callback) runs to completion
  and is a function `State → State`.
* A JavaScript object keyed by letters is a function from keys to values.
  A key is an `Option Char`: `some c` is the one-letter key `c`, and `none`
  is the key produced by indexing with `undefined` (what `letters[i]` is
  when `i` is out of range).  A value is an `Option Status`: `none` is
  `undefined` (no such property).
* `timeLeft` is an `Int`, so that `prev - 1` is the subtraction of the source.
-/

namespace RoscoScreen

/-- The status strings stored per letter: 'pending', 'pass', 'correct', 'incorrect'. -/
inductive Status where
  | pending
  | pass
  | correct
  | incorrect
  deriving DecidableEq, Repr

/-- The argument of `onPressAnswer`: the three buttons pass
'correct', 'pass' and 'incorrect'. -/
inductive Answer where
  | correct
  | pass
  | incorrect
  deriving DecidableEq, Repr

/-- The status string written for an answer (the answer string itself). -/
def Answer.toStatus : Answer → Status
  | Answer.correct => Status.correct
  | Answer.pass => Status.pass
  | Answer.incorrect => Status.incorrect

/-- An answer that resolves its letter: 'correct' or 'incorrect'. -/
def Answer.isTerminal : Answer → Bool
  | Answer.correct => true
  | Answer.pass => false
  | Answer.incorrect => true

/-- The letter sequence:
`'ABCDEFGHIJKLMNOPQRSTUVWXYZ'.split('').filter(l => l !== 'Ñ')`
(the letter Ñ is the code point 0xD1). -/
def letters : List Char :=
  "ABCDEFGHIJKLMNOPQRSTUVWXYZ".toList.filter (fun l => l != Char.ofNat 0xD1)

/-- The object `letterStatus`: keys to status values. -/
abbrev LetterStatus := Option Char → Option Status

/-- The test `status === 'pending' || status === 'pass'`. -/
def isPendingOrPass (status : Option Status) : Bool :=
  status == some Status.pending || status == some Status.pass

/-- The initial object:
`letters.reduce((acc, letter) => { acc[letter] = 'pending'; return acc; }, {})`. -/
def initialLetterStatus : LetterStatus :=
  letters.foldl
    (fun acc letter => fun key => if key = some letter then some Status.pending else acc key)
    (fun _ => none)

/-- The component state (the five `useState` cells). -/
structure State where
  letterStatus : LetterStatus
  currentIndex : Nat
  gameOver : Bool
  gameStarted : Bool
  timeLeft : Int

/-- The state of the first render: the `useState` initial values. -/
def initialState : State where
  letterStatus := initialLetterStatus
  currentIndex := 0
  gameOver := false
  gameStarted := false
  timeLeft := 150

/-- The `for` loop of `advanceToNextLetter` with `total = letters.length`:
the first argument is the number of iterations still to run, the second
the variable `index`; the result is the pair `(found, index)` at loop exit. -/
def scanLoop (letterStatus : LetterStatus) (total : Nat) : Nat → Nat → Bool × Nat
  | 0, index => (false, index)
  | n + 1, index =>
    if isPendingOrPass (letterStatus (letters[index]?)) then (true, index)
    else scanLoop letterStatus total n ((index + 1) % total)

/-- The body of `advanceToNextLetter` with the iteration bound of the loop
as a parameter: `found ? index : -1`. -/
def advanceWithBound (bound : Nat) (letterStatus : LetterStatus) (startIndex : Nat) : Int :=
  let r := scanLoop letterStatus letters.length bound startIndex
  if r.1 then (r.2 : Int) else -1

/-- The function `advanceToNextLetter`: the loop runs `total * 2` times. -/
def advanceToNextLetter (letterStatus : LetterStatus) (startIndex : Nat) : Int :=
  advanceWithBound (letters.length * 2) letterStatus startIndex

/-- The scan of the specification's rationale, bounded to a single lap
(`N` iterations instead of `2N`); it is not in the source. -/
def advanceSingleLap (letterStatus : LetterStatus) (startIndex : Nat) : Int :=
  advanceWithBound letters.length letterStatus startIndex

/-- The whole-set check
`letters.some(l => newStatus[l] === 'pending' || newStatus[l] === 'pass')`. -/
def hasPendingOrPass (letterStatus : LetterStatus) : Bool :=
  letters.any (fun l => isPendingOrPass (letterStatus (some l)))

/-- The object `{ ...prev, [currentLetter]: answer }`. -/
def setStatus (prev : LetterStatus) (currentLetter : Option Char) (answer : Answer) :
    LetterStatus :=
  fun key => if key = currentLetter then some answer.toStatus else prev key

/-- The handler `onPressAnswer`.  The status object is updated and the
whole-set check runs on the updated object; `advanceToNextLetter` reads the
object of the current render, that is the one before the update. -/
def onPressAnswer (s : State) (answer : Answer) : State :=
  if !s.gameStarted || s.gameOver then s
  else
    let currentLetter := letters[s.currentIndex]?
    let newStatus := setStatus s.letterStatus currentLetter answer
    let nextIndex := advanceToNextLetter s.letterStatus ((s.currentIndex + 1) % letters.length)
    { s with
      letterStatus := newStatus
      gameOver := if !hasPendingOrPass newStatus then true else s.gameOver
      currentIndex := if nextIndex ≠ -1 then nextIndex.toNat else s.currentIndex }

/-- One firing of the interval callback.  The effect installs the interval
only while `gameStarted && !gameOver` and clears it otherwise, so outside
of that there is no tick; the update is
`prev <= 1 ? (setGameOver(true), 0) : prev - 1`. -/
def tick (s : State) : State :=
  if !s.gameStarted || s.gameOver then s
  else if s.timeLeft ≤ 1 then { s with gameOver := true, timeLeft := 0 }
  else { s with timeLeft := s.timeLeft - 1 }

/-- The handler `startGame`. -/
def startGame (_s : State) : State where
  letterStatus := initialLetterStatus
  currentIndex := 0
  timeLeft := 150
  gameOver := false
  gameStarted := true

/-- The events that change the state. -/
inductive Event where
  | startRound
  | submitAnswer (answer : Answer)
  | timerTick
  deriving DecidableEq, Repr

/-- The state after one event. -/
def step (s : State) : Event → State
  | Event.startRound => startGame s
  | Event.submitAnswer answer => onPressAnswer s answer
  | Event.timerTick => tick s

/-- The state after a sequence of events, the oldest first. -/
def run (s : State) (events : List Event) : State :=
  events.foldl step s

/-- The state after a sequence of `onPressAnswer` calls, the oldest first. -/
def submitAll (s : State) (answers : List Answer) : State :=
  answers.foldl onPressAnswer s

/-- The state after `k` firings of the interval callback. -/
def ticks : Nat → State → State
  | 0, s => s
  | k + 1, s => tick (ticks k s)

/-- The write of the answer submission as the specification words it:
`statusOf[currentLetter] = verdict`, where correct gives the status
correct, incorrect the status incorrect and pass the status passed; every
other entry keeps its status. -/
def writeVerdictSpec (statusOf : LetterStatus) (currentLetter : Option Char)
    (verdict : Answer) : LetterStatus :=
  fun key =>
    if key = currentLetter then
      match verdict with
      | Answer.correct => some Status.correct
      | Answer.incorrect => some Status.incorrect
      | Answer.pass => some Status.pass
    else statusOf key

/-- The answer submission as the specification words it: write the
verdict; if no letter is pending or passed any more the round is over;
otherwise advance over the updated object from `(currentIndex + 1) mod N`,
and leave `currentIndex` unchanged when the advance finds nothing. -/
def submitAnswerSpec (s : State) (verdict : Answer) : State :=
  if !s.gameStarted || s.gameOver then s
  else
    let newStatus := writeVerdictSpec s.letterStatus (letters[s.currentIndex]?) verdict
    if !hasPendingOrPass newStatus then
      { s with letterStatus := newStatus, gameOver := true }
    else
      let nextIndex := advanceToNextLetter newStatus ((s.currentIndex + 1) % letters.length)
      { s with
        letterStatus := newStatus
        currentIndex := if nextIndex ≠ -1 then nextIndex.toNat else s.currentIndex }

/-- A status object in which the letter A (index 0) is passed and every
other letter is correct. -/
def onlyAPassed : LetterStatus :=
  fun key =>
    if key = some 'A' then some Status.pass
    else if key ∈ letters.map some then some Status.correct
    else none

/-- The invariant of the reachable states: while the round is not over
there is time left and `currentIndex` addresses a letter in play; once it is
over, the time is up or no letter is in play. -/
def Inv (s : State) : Prop :=
  (s.gameOver = false →
    0 < s.timeLeft ∧ s.currentIndex < 26 ∧
      isPendingOrPass (s.letterStatus (letters[s.currentIndex]?)) = true) ∧
  (s.gameOver = true → s.timeLeft = 0 ∨ hasPendingOrPass s.letterStatus = false)

/-- The status of the letter at position `i` when the answers `answers`
have been given to the letters at positions 0, 1, 2, ... in that order. -/
def statusAfter (answers : List Answer) (i : Nat) : Status :=
  match answers[i]? with
  | some a => a.toStatus
  | none => Status.pending

/-- The answers of scenario B: pass for the letter at index 0, then
correct for the remaining 25 letters. -/
def scenarioB : List Answer :=
  Answer.pass :: List.replicate 25 Answer.correct

/-- The letter at position `i` is still in play: its status is pending or pass. -/
def playable (letterStatus : LetterStatus) (i : Nat) : Prop :=
  isPendingOrPass (letterStatus (letters[i]?)) = true

instance (letterStatus : LetterStatus) (i : Nat) : Decidable (playable letterStatus i) := by
  unfold playable; infer_instance

/-! ## The letter sequence -/

theorem letters_length : letters.length = 26 := by decide

theorem letters_nodup : letters.Nodup := by decide

/-! ## The scan loop -/

theorem succ_mod_add (s t k : Nat) : ((s + 1) % t + k) % t = (s + (k + 1)) % t := by
  rw [Nat.add_mod, Nat.mod_mod, ← Nat.add_mod]
  congr 1
  omega

/-- What the loop computes: either it stops at the first playable position
of the circular order, or it runs out of iterations having seen none. -/
theorem scanLoop_spec (ls : LetterStatus) (total : Nat) :
    ∀ (n start : Nat), start < total →
      (∃ k, k < n ∧ scanLoop ls total n start = (true, (start + k) % total) ∧
          playable ls ((start + k) % total) ∧
          ∀ j, j < k → ¬ playable ls ((start + j) % total)) ∨
      (scanLoop ls total n start = (false, (start + n) % total) ∧
          ∀ j, j < n → ¬ playable ls ((start + j) % total)) := by
  intro n
  induction n with
  | zero =>
    intro start hs
    right
    refine ⟨?_, fun j hj => absurd hj (Nat.not_lt_zero j)⟩
    simp [scanLoop, Nat.mod_eq_of_lt hs]
  | succ n ih =>
    intro start hs
    by_cases hp : playable ls start
    · left
      refine ⟨0, Nat.succ_pos n, ?_, ?_, fun j hj => absurd hj (Nat.not_lt_zero j)⟩
      · have hp2 : isPendingOrPass (ls (letters[start]?)) = true := hp
        simp [scanLoop, hp2, Nat.mod_eq_of_lt hs]
      · simpa [Nat.mod_eq_of_lt hs] using hp
    · have hp2 : isPendingOrPass (ls (letters[start]?)) = false := by
        simpa [playable] using hp
      have hlt : (start + 1) % total < total := Nat.mod_lt _ (by omega)
      have hstep : scanLoop ls total (n + 1) start
          = scanLoop ls total n ((start + 1) % total) := by
        simp [scanLoop, hp2]
      have hall : ∀ k j, j < k + 1 →
          (∀ i, i < k → ¬ playable ls (((start + 1) % total + i) % total)) →
          ¬ playable ls ((start + j) % total) := by
        intro k j hj hprev
        cases j with
        | zero => simpa [Nat.mod_eq_of_lt hs] using hp
        | succ i =>
          have := hprev i (by omega)
          rwa [succ_mod_add] at this
      rcases ih ((start + 1) % total) hlt with ⟨k, hk, heq, hplay, hmin⟩ | ⟨heq, hnone⟩
      · left
        refine ⟨k + 1, by omega, ?_, ?_, fun j hj => hall k j hj hmin⟩
        · rw [hstep, heq, succ_mod_add]
        · rwa [succ_mod_add] at hplay
      · right
        refine ⟨?_, fun j hj => hall n j hj hnone⟩
        rw [hstep, heq, succ_mod_add]

/-- The result of the bounded scan when the bound covers at least one lap. -/
theorem advanceWithBound_spec (bound : Nat) (hb : 26 ≤ bound) (ls : LetterStatus)
    (start : Nat) (hs : start < 26) :
    (∃ k, k < 26 ∧ advanceWithBound bound ls start = (((start + k) % 26 : Nat) : Int) ∧
        playable ls ((start + k) % 26) ∧
        ∀ j, j < k → ¬ playable ls ((start + j) % 26)) ∨
    (advanceWithBound bound ls start = -1 ∧ ∀ i, i < 26 → ¬ playable ls i) := by
  rcases scanLoop_spec ls 26 bound start hs with ⟨k, _, heq, hplay, hmin⟩ | ⟨heq, hnone⟩
  · left
    have hk26 : k < 26 := by
      by_contra hge
      have h1 := hmin (k - 26) (by omega)
      have h2 : (start + (k - 26)) % 26 = (start + k) % 26 := by omega
      rw [h2] at h1
      exact h1 hplay
    refine ⟨k, hk26, ?_, hplay, hmin⟩
    simp [advanceWithBound, letters_length, heq]
  · right
    refine ⟨?_, ?_⟩
    · simp [advanceWithBound, letters_length, heq]
    · intro i hi
      have h1 := hnone ((i + 26 - start) % 26) (by omega)
      have h2 : (start + (i + 26 - start) % 26) % 26 = i := by omega
      rwa [h2] at h1

/-- Any bound of at least one lap gives the result of the one-lap scan. -/
theorem advanceWithBound_eq_lap (bound : Nat) (hb : 26 ≤ bound) (ls : LetterStatus)
    (start : Nat) (hs : start < 26) :
    advanceWithBound bound ls start = advanceWithBound 26 ls start := by
  rcases advanceWithBound_spec bound hb ls start hs with
    ⟨k, _, heq, hplay, hmin⟩ | ⟨heq, hnone⟩ <;>
  rcases advanceWithBound_spec 26 (le_refl 26) ls start hs with
    ⟨k2, _, heq2, hplay2, hmin2⟩ | ⟨heq2, hnone2⟩
  · rcases Nat.lt_trichotomy k k2 with h | h | h
    · exact absurd hplay (hmin2 k h)
    · rw [heq, heq2, h]
    · exact absurd hplay2 (hmin k2 h)
  · exact absurd hplay (hnone2 _ (Nat.mod_lt _ (by omega)))
  · exact absurd hplay2 (hnone _ (Nat.mod_lt _ (by omega)))
  · rw [heq, heq2]

/-- The whole-set check in terms of positions. -/
theorem hasPendingOrPass_iff (ls : LetterStatus) :
    hasPendingOrPass ls = true ↔ ∃ i, i < 26 ∧ playable ls i := by
  unfold hasPendingOrPass playable
  rw [List.any_eq_true]
  constructor
  · rintro ⟨l, hl, hp⟩
    obtain ⟨i, hi, rfl⟩ := List.getElem_of_mem hl
    refine ⟨i, by rw [← letters_length]; exact hi, ?_⟩
    rw [List.getElem?_eq_getElem hi]
    exact hp
  · rintro ⟨i, hi, hp⟩
    have hi2 : i < letters.length := by rw [letters_length]; exact hi
    rw [List.getElem?_eq_getElem hi2] at hp
    exact ⟨letters[i], List.getElem_mem hi2, hp⟩

theorem hasPendingOrPass_false_iff (ls : LetterStatus) :
    hasPendingOrPass ls = false ↔ ∀ i, i < 26 → ¬ playable ls i := by
  rw [← Bool.not_eq_true, hasPendingOrPass_iff]
  push_neg
  rfl

/-- A scan that meets a playable position after `k` steps, and none
before, returns that position. -/
theorem advanceToNextLetter_eq_of_first (ls : LetterStatus) (start k : Nat)
    (hs : start < 26) (hplay : playable ls ((start + k) % 26))
    (hmin : ∀ j, j < k → ¬ playable ls ((start + j) % 26)) :
    advanceToNextLetter ls start = (((start + k) % 26 : Nat) : Int) := by
  have hb : 26 ≤ letters.length * 2 := by rw [letters_length]; omega
  unfold advanceToNextLetter
  rcases advanceWithBound_spec _ hb ls start hs with ⟨k2, _, heq2, hplay2, hmin2⟩ | ⟨_, hnone⟩
  · rw [heq2]
    by_cases hlt : k2 ≤ k
    · rcases Nat.lt_or_ge k2 k with h | h
      · exact absurd hplay2 (hmin k2 h)
      · have : k2 = k := by omega
        rw [this]
    · exact absurd hplay (hmin2 k (by omega))
  · exact absurd hplay (hnone _ (Nat.mod_lt _ (by omega)))

/-! ## Turn advancement -/

/-- C1. For every status object and every `fromIndex` in `[0, 26)`,
`advanceToNextLetter` returns the first position of the circular order
`fromIndex, fromIndex + 1, ...` (modulo 26) whose status is pending or
pass: `fromIndex` itself when it is in play, never a position whose status
is correct or incorrect; and it returns -1 exactly when no letter is pending
or pass, which is exactly when the check `letters.some(...)` is false. -/
theorem advanceToNextLetter_first_in_play (ls : LetterStatus) (fromIndex : Nat)
    (h : fromIndex < 26) :
    ((∃ k, k < 26 ∧
        advanceToNextLetter ls fromIndex = (((fromIndex + k) % 26 : Nat) : Int) ∧
        playable ls ((fromIndex + k) % 26) ∧
        ∀ j, j < k → ¬ playable ls ((fromIndex + j) % 26)) ∨
      advanceToNextLetter ls fromIndex = -1) ∧
    (playable ls fromIndex → advanceToNextLetter ls fromIndex = (fromIndex : Int)) ∧
    (∀ i : Nat, advanceToNextLetter ls fromIndex = (i : Int) →
        i < 26 ∧ playable ls i ∧
        ls (letters[i]?) ≠ some Status.correct ∧ ls (letters[i]?) ≠ some Status.incorrect) ∧
    (advanceToNextLetter ls fromIndex = -1 ↔ ∀ i, i < 26 → ¬ playable ls i) ∧
    (advanceToNextLetter ls fromIndex = -1 ↔ hasPendingOrPass ls = false) := by
  have hb : 26 ≤ letters.length * 2 := by rw [letters_length]; omega
  have hspec := advanceWithBound_spec _ hb ls fromIndex h
  have hiff : advanceToNextLetter ls fromIndex = -1 ↔ ∀ i, i < 26 → ¬ playable ls i := by
    unfold advanceToNextLetter
    rcases hspec with ⟨k, _, heq, hplay, _⟩ | ⟨heq, hnone⟩
    · constructor
      · intro hneg
        rw [heq] at hneg
        omega
      · intro hnone
        exact absurd hplay (hnone _ (Nat.mod_lt _ (by omega)))
    · exact ⟨fun _ => hnone, fun _ => heq⟩
  refine ⟨?_, ?_, ?_, hiff, ?_⟩
  · rcases hspec with ⟨k, hk, heq, hplay, hmin⟩ | ⟨heq, _⟩
    · exact Or.inl ⟨k, hk, heq, hplay, hmin⟩
    · exact Or.inr heq
  · intro hp
    have := advanceToNextLetter_eq_of_first ls fromIndex 0 h
      (by simpa [Nat.mod_eq_of_lt h] using hp) (fun j hj => absurd hj (Nat.not_lt_zero j))
    simpa [Nat.mod_eq_of_lt h] using this
  · intro i hi
    rcases hspec with ⟨k, _, heq, hplay, _⟩ | ⟨heq, _⟩
    · have hik : i = (fromIndex + k) % 26 := by
        have : advanceToNextLetter ls fromIndex
            = (((fromIndex + k) % 26 : Nat) : Int) := heq
        rw [this] at hi
        exact_mod_cast hi.symm
      subst hik
      refine ⟨Nat.mod_lt _ (by omega), hplay, ?_, ?_⟩
      · intro hc
        simp [playable, isPendingOrPass, hc] at hplay
      · intro hc
        simp [playable, isPendingOrPass, hc] at hplay
    · have : advanceToNextLetter ls fromIndex = -1 := heq
      rw [this] at hi
      omega
  · rw [hiff, hasPendingOrPass_false_iff]

/-- C1, at a concrete input: with every letter pending the scan from 7 stops at 7. -/
theorem advanceToNextLetter_first_in_play_witness :
    advanceToNextLetter initialLetterStatus 7 = 7 :=
  (advanceToNextLetter_first_in_play initialLetterStatus 7 (by decide)).2.1 (by decide)

/-- C9, refuted as stated: letter A (index 0) is passed, every other letter
is correct, and the scan starts at index 1, ahead of A; the loop bounded to
a single lap of 26 iterations returns 0, the index of A, not -1. -/
theorem single_lap_returns_passed_letter :
    playable onlyAPassed 0 ∧ onlyAPassed (letters[0]?) = some Status.pass ∧
    (∀ i, i < 26 → i ≠ 0 → ¬ playable onlyAPassed i) ∧ 0 < 1 ∧
    advanceSingleLap onlyAPassed 1 = 0 ∧ advanceSingleLap onlyAPassed 1 ≠ -1 ∧
    advanceToNextLetter onlyAPassed 1 = 0 := by
  decide

/-- C9, amended: for every status object and every `fromIndex` in `[0, 26)`
the loop bounded to a single lap returns what the loop of `2N` iterations
returns; so when the only letter in play sits at an index behind the scan
start, both return that index. -/
theorem single_lap_eq_two_laps (ls : LetterStatus) (fromIndex : Nat) (h : fromIndex < 26) :
    advanceSingleLap ls fromIndex = advanceToNextLetter ls fromIndex ∧
    ∀ p, p < fromIndex → playable ls p → (∀ i, i < 26 → i ≠ p → ¬ playable ls i) →
      advanceSingleLap ls fromIndex = (p : Int) ∧
      advanceToNextLetter ls fromIndex = (p : Int) := by
  have hb : 26 ≤ letters.length * 2 := by rw [letters_length]; omega
  have heq : advanceSingleLap ls fromIndex = advanceToNextLetter ls fromIndex := by
    unfold advanceSingleLap advanceToNextLetter
    rw [advanceWithBound_eq_lap _ hb ls fromIndex h, letters_length]
  refine ⟨heq, ?_⟩
  intro p hp hplay hothers
  have hpos : (fromIndex + (p + 26 - fromIndex)) % 26 = p := by omega
  have := advanceToNextLetter_eq_of_first ls fromIndex (p + 26 - fromIndex) h
    (by rw [hpos]; exact hplay)
    (fun j hj => hothers _ (Nat.mod_lt _ (by omega)) (by omega))
  rw [hpos] at this
  exact ⟨heq.trans this, this⟩

/-- C9 amended, at a concrete input: A passed, the rest correct, scan from 1. -/
theorem single_lap_eq_two_laps_witness :
    advanceSingleLap onlyAPassed 1 = advanceToNextLetter onlyAPassed 1 ∧
    advanceSingleLap onlyAPassed 1 = 0 ∧ advanceToNextLetter onlyAPassed 1 = 0 :=
  ⟨(single_lap_eq_two_laps onlyAPassed 1 (by decide)).1,
   (single_lap_eq_two_laps onlyAPassed 1 (by decide)).2 0 (by decide) (by decide) (by decide)⟩

/-! ## Silent no-op, restart, countdown -/

theorem initial_all_pending : ∀ l ∈ letters, initialLetterStatus (some l) = some Status.pending := by
  decide

theorem initial_playable : ∀ i, i < 26 → playable initialLetterStatus i := by
  decide

/-- C5. In a state in which the round has not been started or is already
over, `onPressAnswer` with any of the three verdicts returns the state it
was given: statuses, `currentIndex`, `timeLeft` and the over flag are
unchanged (the function is total, so no error is raised). -/
theorem onPressAnswer_ignored (s : State) (answer : Answer)
    (h : s.gameStarted = false ∨ s.gameOver = true) :
    onPressAnswer s answer = s ∧
    (onPressAnswer s answer).letterStatus = s.letterStatus ∧
    (onPressAnswer s answer).currentIndex = s.currentIndex ∧
    (onPressAnswer s answer).timeLeft = s.timeLeft ∧
    (onPressAnswer s answer).gameOver = s.gameOver := by
  have : onPressAnswer s answer = s := by
    rcases h with h | h <;> simp [onPressAnswer, h]
  rw [this]
  exact ⟨rfl, rfl, rfl, rfl, rfl⟩

/-- C5, at a concrete input: a press before the round is started (scenario D). -/
theorem onPressAnswer_ignored_witness :
    onPressAnswer initialState Answer.correct = initialState :=
  (onPressAnswer_ignored initialState Answer.correct (Or.inl rfl)).1

/-- C6. Whatever the prior state, `startGame` yields one and the same state:
all 26 letters pending, `currentIndex = 0`, `timeLeft = 150`, not over,
started; applying it twice gives what applying it once gives. -/
theorem startGame_resets (s s2 : State) :
    startGame s = startGame s2 ∧
    (∀ l ∈ letters, (startGame s).letterStatus (some l) = some Status.pending) ∧
    (startGame s).currentIndex = 0 ∧
    (startGame s).timeLeft = 150 ∧
    (startGame s).gameOver = false ∧
    (startGame s).gameStarted = true ∧
    startGame (startGame s) = startGame s :=
  ⟨rfl, initial_all_pending, rfl, rfl, rfl, rfl, rfl⟩

theorem tick_expire (s : State) (h1 : s.gameStarted = true) (h2 : s.gameOver = false)
    (h3 : s.timeLeft ≤ 1) : tick s = { s with gameOver := true, timeLeft := 0 } := by
  simp [tick, h1, h2, h3]

theorem tick_decrement (s : State) (h1 : s.gameStarted = true) (h2 : s.gameOver = false)
    (h3 : ¬ s.timeLeft ≤ 1) : tick s = { s with timeLeft := s.timeLeft - 1 } := by
  simp [tick, h1, h2, h3]

theorem tick_inactive (s : State) (h : s.gameStarted = false ∨ s.gameOver = true) :
    tick s = s := by
  rcases h with h | h <;> simp [tick, h]

theorem ticks_fresh (s0 : State) : ∀ k : Nat, k ≤ 150 →
    (ticks k (startGame s0)).timeLeft = 150 - (k : Int) ∧
    (ticks k (startGame s0)).currentIndex = 0 ∧
    (ticks k (startGame s0)).letterStatus = initialLetterStatus ∧
    (ticks k (startGame s0)).gameStarted = true ∧
    ((ticks k (startGame s0)).gameOver = true ↔ k = 150) := by
  intro k
  induction k with
  | zero =>
    intro _
    simp [ticks, startGame]
  | succ k ih =>
    intro hk
    obtain ⟨ht, hi, hl, hst, hov⟩ := ih (by omega)
    have hov2 : (ticks k (startGame s0)).gameOver = false := by
      cases hg : (ticks k (startGame s0)).gameOver with
      | false => rfl
      | true => have := hov.mp hg; omega
    show (tick (ticks k (startGame s0))).timeLeft = 150 - ((k + 1 : Nat) : Int) ∧
      (tick (ticks k (startGame s0))).currentIndex = 0 ∧
      (tick (ticks k (startGame s0))).letterStatus = initialLetterStatus ∧
      (tick (ticks k (startGame s0))).gameStarted = true ∧
      ((tick (ticks k (startGame s0))).gameOver = true ↔ k + 1 = 150)
    generalize ticks k (startGame s0) = t at *
    by_cases hlast : t.timeLeft ≤ 1
    · rw [tick_expire t hst hov2 hlast]
      refine ⟨?_, hi, hl, hst, ?_⟩
      · show (0 : Int) = _
        push_cast
        omega
      · show true = true ↔ _
        constructor
        · intro _; omega
        · intro _; rfl
    · rw [tick_decrement t hst hov2 hlast]
      refine ⟨?_, hi, hl, hst, ?_⟩
      · show t.timeLeft - 1 = _
        push_cast
        omega
      · show t.gameOver = true ↔ _
        rw [hov2]
        constructor
        · intro h; exact absurd h (by decide)
        · intro h; omega

/-- C8. From a freshly started round with no answer submitted, after `k`
timer ticks with `0 ≤ k ≤ 150`: `timeLeft = 150 - k`, which is not negative,
`currentIndex` is still 0, every letter is still pending, and the round is
over exactly when `k = 150`. -/
theorem ticks_countdown (s0 : State) (k : Nat) (hk : k ≤ 150) :
    (ticks k (startGame s0)).timeLeft = 150 - (k : Int) ∧
    0 ≤ (ticks k (startGame s0)).timeLeft ∧
    (ticks k (startGame s0)).currentIndex = 0 ∧
    (∀ l ∈ letters, (ticks k (startGame s0)).letterStatus (some l) = some Status.pending) ∧
    ((ticks k (startGame s0)).gameOver = true ↔ k = 150) := by
  obtain ⟨ht, hi, hl, _, hov⟩ := ticks_fresh s0 k hk
  refine ⟨ht, by omega, hi, ?_, hov⟩
  rw [hl]
  exact initial_all_pending

/-- C8, at a concrete input: the 150 ticks of scenario C. -/
theorem ticks_countdown_witness :
    (ticks 150 (startGame initialState)).timeLeft = 0 ∧
    (ticks 150 (startGame initialState)).currentIndex = 0 ∧
    (ticks 150 (startGame initialState)).gameOver = true := by
  have h := ticks_countdown initialState 150 (by decide)
  exact ⟨by simpa using h.1, h.2.2.1, h.2.2.2.2.mpr rfl⟩

/-! ## Answer submission -/

theorem playable_setStatus_ne (ls : LetterStatus) (c i : Nat) (a : Answer) (hi : i < 26)
    (hne : i ≠ c) : playable (setStatus ls (letters[c]?) a) i ↔ playable ls i := by
  have hkey : letters[i]? ≠ letters[c]? := fun h =>
    hne (List.getElem?_inj (by rw [letters_length]; exact hi) letters_nodup h)
  unfold playable setStatus
  rw [if_neg hkey]

theorem playable_setStatus_self (ls : LetterStatus) (c : Nat) (a : Answer) :
    playable (setStatus ls (letters[c]?) a) c ↔ a = Answer.pass := by
  cases a <;> simp [playable, setStatus, isPendingOrPass, Answer.toStatus]

/-- The scan that `onPressAnswer` runs, from the position after a current
letter that is in play: it finds a position `r` in play; `r` is the current
position only when no other letter is in play; and a status object that
agrees with this one away from the current letter gives the same result,
provided the current letter is still in play there when `r` is the current
position. -/
theorem advance_after_current (ls : LetterStatus) (c : Nat) (hc : c < 26)
    (hp : playable ls c) :
    ∃ r : Nat, r < 26 ∧ advanceToNextLetter ls ((c + 1) % 26) = (r : Int) ∧ playable ls r ∧
      (r = c → ∀ i, i < 26 → i ≠ c → ¬ playable ls i) ∧
      (∀ ls2 : LetterStatus, (∀ i, i < 26 → i ≠ c → (playable ls2 i ↔ playable ls i)) →
        (r = c → playable ls2 c) → advanceToNextLetter ls2 ((c + 1) % 26) = (r : Int)) := by
  have hb : 26 ≤ letters.length * 2 := by rw [letters_length]; omega
  have hs : (c + 1) % 26 < 26 := Nat.mod_lt _ (by omega)
  rcases advanceWithBound_spec _ hb ls ((c + 1) % 26) hs with
    ⟨k, hk, heq, hplay, hmin⟩ | ⟨_, hnone⟩
  · refine ⟨((c + 1) % 26 + k) % 26, Nat.mod_lt _ (by omega), heq, hplay, ?_, ?_⟩
    · intro hrc i hi hic
      have h1 := hmin ((i + 26 - (c + 1) % 26) % 26) (by omega)
      have h2 : ((c + 1) % 26 + (i + 26 - (c + 1) % 26) % 26) % 26 = i := by omega
      rwa [h2] at h1
    · intro ls2 hagree hcur
      apply advanceToNextLetter_eq_of_first ls2 _ k hs
      · by_cases hrc : ((c + 1) % 26 + k) % 26 = c
        · rw [hrc]; exact hcur hrc
        · exact (hagree _ (Nat.mod_lt _ (by omega)) hrc).mpr hplay
      · intro j hj
        have hne : ((c + 1) % 26 + j) % 26 ≠ c := by omega
        rw [hagree _ (Nat.mod_lt _ (by omega)) hne]
        exact hmin j hj
  · exact absurd hp (hnone c hc)

/-- The fields of the state after an accepted answer, given the result of the scan. -/
theorem onPressAnswer_fields (s : State) (a : Answer) (h1 : s.gameStarted = true)
    (h2 : s.gameOver = false) (r : Nat)
    (hr : advanceToNextLetter s.letterStatus ((s.currentIndex + 1) % 26) = (r : Int)) :
    (onPressAnswer s a).letterStatus
        = setStatus s.letterStatus (letters[s.currentIndex]?) a ∧
    (onPressAnswer s a).currentIndex = r ∧
    (onPressAnswer s a).gameOver
        = !hasPendingOrPass (setStatus s.letterStatus (letters[s.currentIndex]?) a) ∧
    (onPressAnswer s a).timeLeft = s.timeLeft ∧
    (onPressAnswer s a).gameStarted = true := by
  have hne : ¬ ((r : Int) = -1) := by omega
  refine ⟨?_, ?_, ?_, ?_, ?_⟩ <;>
    simp [onPressAnswer, h1, h2, letters_length, hr, hne]

theorem onPressAnswer_inactive (s : State) (a : Answer)
    (h : s.gameStarted = false ∨ s.gameOver = true) : onPressAnswer s a = s := by
  rcases h with h | h <;> simp [onPressAnswer, h]

/-! ## The invariant -/

theorem inv_startGame (s : State) : Inv (startGame s) := by
  refine ⟨fun _ => ⟨?_, ?_, ?_⟩, fun h => ?_⟩
  · show (0 : Int) < 150
    decide
  · show 0 < 26
    decide
  · show isPendingOrPass (initialLetterStatus (letters[0]?)) = true
    decide
  · have : false = true := h
    exact absurd this (by decide)

theorem inv_initialState : Inv initialState := by
  refine ⟨fun _ => ⟨by decide, by decide, by decide⟩, fun h => ?_⟩
  exact absurd h (by decide)

theorem inv_tick (s : State) (h : Inv s) : Inv (tick s) := by
  by_cases hact : s.gameStarted = true ∧ s.gameOver = false
  · obtain ⟨h1, h2⟩ := hact
    obtain ⟨ht, hc, hp⟩ := h.1 h2
    by_cases hlast : s.timeLeft ≤ 1
    · rw [tick_expire s h1 h2 hlast]
      exact ⟨fun hov => absurd hov (by simp), fun _ => Or.inl rfl⟩
    · rw [tick_decrement s h1 h2 hlast]
      refine ⟨fun _ => ⟨?_, hc, hp⟩, fun hov => ?_⟩
      · show 0 < s.timeLeft - 1
        omega
      · have : s.gameOver = true := hov
        rw [h2] at this
        exact absurd this (by decide)
  · have : s.gameStarted = false ∨ s.gameOver = true := by
      cases hs : s.gameStarted <;> cases ho : s.gameOver <;> simp_all
    rw [tick_inactive s this]
    exact h

theorem inv_onPressAnswer (s : State) (a : Answer) (h : Inv s) : Inv (onPressAnswer s a) := by
  by_cases hact : s.gameStarted = true ∧ s.gameOver = false
  · obtain ⟨h1, h2⟩ := hact
    obtain ⟨ht, hc, hp⟩ := h.1 h2
    obtain ⟨r, hr26, hr, hrplay, hronly, _⟩ :=
      advance_after_current s.letterStatus s.currentIndex hc hp
    obtain ⟨fl, fc, fo, ft, _⟩ := onPressAnswer_fields s a h1 h2 r hr
    unfold Inv
    rw [fl, fc, fo, ft]
    cases hhas : hasPendingOrPass (setStatus s.letterStatus (letters[s.currentIndex]?) a) with
    | false =>
      exact ⟨fun hov => absurd hov (by decide), fun _ => Or.inr rfl⟩
    | true =>
      refine ⟨fun _ => ⟨ht, hr26, ?_⟩, fun hov => absurd hov (by decide)⟩
      show playable _ r
      by_cases hrc : r = s.currentIndex
      · obtain ⟨i, hi, hiplay⟩ := (hasPendingOrPass_iff _).mp hhas
        by_cases hic : i = s.currentIndex
        · rw [hrc]
          rw [hic] at hiplay
          exact hiplay
        · exact absurd ((playable_setStatus_ne _ _ _ a hi hic).mp hiplay)
            (hronly hrc i hi hic)
      · exact (playable_setStatus_ne _ _ _ a hr26 hrc).mpr hrplay
  · have : s.gameStarted = false ∨ s.gameOver = true := by
      cases hs : s.gameStarted <;> cases ho : s.gameOver <;> simp_all
    rw [onPressAnswer_inactive s a this]
    exact h

theorem inv_step (s : State) (e : Event) (h : Inv s) : Inv (step s e) := by
  cases e with
  | startRound => exact inv_startGame s
  | submitAnswer a => exact inv_onPressAnswer s a h
  | timerTick => exact inv_tick s h

theorem inv_run (events : List Event) : ∀ s, Inv s → Inv (run s events) := by
  induction events with
  | nil => intro s h; exact h
  | cons e es ih => intro s h; exact ih (step s e) (inv_step s e h)

theorem inv_submitAll (answers : List Answer) : ∀ s, Inv s → Inv (submitAll s answers) := by
  induction answers with
  | nil => intro s h; exact h
  | cons a as ih => intro s h; exact ih (onPressAnswer s a) (inv_onPressAnswer s a h)

theorem hasPendingOrPass_false_letters (ls : LetterStatus) :
    hasPendingOrPass ls = false ↔ ∀ l ∈ letters, isPendingOrPass (ls (some l)) = false := by
  unfold hasPendingOrPass
  rw [List.any_eq_false]
  constructor
  · intro h l hl
    simpa using h l hl
  · intro h l hl
    simpa using h l hl

theorem onPressAnswer_keeps_terminal (s : State) (a : Answer) (hinv : Inv s)
    (key : Option Char) (st : Status) (hst : st = Status.correct ∨ st = Status.incorrect)
    (h : s.letterStatus key = some st) : (onPressAnswer s a).letterStatus key = some st := by
  by_cases hact : s.gameStarted = true ∧ s.gameOver = false
  · obtain ⟨h1, h2⟩ := hact
    obtain ⟨_, _, hp⟩ := hinv.1 h2
    have hkey : key ≠ letters[s.currentIndex]? := by
      intro hk
      rw [← hk, h] at hp
      rcases hst with rfl | rfl <;> simp [isPendingOrPass] at hp
    have hl : (onPressAnswer s a).letterStatus
        = setStatus s.letterStatus (letters[s.currentIndex]?) a := by
      simp [onPressAnswer, h1, h2]
    rw [hl]
    unfold setStatus
    rw [if_neg hkey]
    exact h
  · have : s.gameStarted = false ∨ s.gameOver = true := by
      cases hs : s.gameStarted <;> cases ho : s.gameOver <;> simp_all
    rw [onPressAnswer_inactive s a this]
    exact h

theorem submitAll_keeps_terminal (answers : List Answer) (key : Option Char) (st : Status)
    (hst : st = Status.correct ∨ st = Status.incorrect) :
    ∀ s, Inv s → s.letterStatus key = some st →
      (submitAll s answers).letterStatus key = some st := by
  induction answers with
  | nil => intro s _ h; exact h
  | cons a as ih =>
    intro s hinv h
    exact ih (onPressAnswer s a) (inv_onPressAnswer s a hinv)
      (onPressAnswer_keeps_terminal s a hinv key st hst h)

theorem submitAll_append (s : State) (xs ys : List Answer) :
    submitAll s (xs ++ ys) = submitAll (submitAll s xs) ys := by
  unfold submitAll
  rw [List.foldl_append]

theorem submitAll_concat (s : State) (xs : List Answer) (a : Answer) :
    submitAll s (xs ++ [a]) = onPressAnswer (submitAll s xs) a := by
  rw [submitAll_append]
  rfl

theorem onPressAnswer_gameOver (s : State) (a : Answer) (h1 : s.gameStarted = true)
    (h2 : s.gameOver = false) :
    (onPressAnswer s a).gameOver
      = !hasPendingOrPass (setStatus s.letterStatus (letters[s.currentIndex]?) a) := by
  simp [onPressAnswer, h1, h2]

/-! ## Properties of the reachable states -/

/-- C2. Along every sequence of `onPressAnswer` calls applied to a freshly
started round, a letter whose status has become correct or incorrect (after
the calls `before`) has that same status after any further calls `after`. -/
theorem terminal_status_never_changes (s0 : State) (before after : List Answer) (l : Char)
    (st : Status) (hst : st = Status.correct ∨ st = Status.incorrect)
    (h : (submitAll (startGame s0) before).letterStatus (some l) = some st) :
    (submitAll (startGame s0) (before ++ after)).letterStatus (some l) = some st := by
  rw [submitAll_append]
  exact submitAll_keeps_terminal after (some l) st hst _
    (inv_submitAll before _ (inv_startGame s0)) h

/-- C2, at a concrete input: A answered correct, then four more answers. -/
theorem terminal_status_never_changes_witness :
    (submitAll (startGame initialState)
      ([Answer.correct] ++ [Answer.pass, Answer.incorrect, Answer.pass, Answer.correct])).letterStatus
        (some 'A') = some Status.correct :=
  terminal_status_never_changes initialState [Answer.correct]
    [Answer.pass, Answer.incorrect, Answer.pass, Answer.correct] 'A' Status.correct
    (Or.inl rfl) (by decide)

/-- C3. In every state reachable from the initial state by any sequence of
`startGame`, `onPressAnswer` (any verdict) and timer ticks, `gameOver` is true
if and only if `timeLeft = 0` or no letter has status pending or pass. -/
theorem gameOver_iff_time_up_or_resolved (events : List Event) :
    (run initialState events).gameOver = true ↔
      ((run initialState events).timeLeft = 0 ∨
        ∀ l ∈ letters,
          isPendingOrPass ((run initialState events).letterStatus (some l)) = false) := by
  have hinv := inv_run events initialState inv_initialState
  rw [← hasPendingOrPass_false_letters]
  constructor
  · exact hinv.2
  · intro h
    cases hov : (run initialState events).gameOver with
    | true => rfl
    | false =>
      obtain ⟨ht, hc, hp⟩ := hinv.1 hov
      rcases h with h | h
      · omega
      · exact absurd hp ((hasPendingOrPass_false_iff _).mp h _ hc)

/-- C4. In every state reachable from a freshly started round by
`onPressAnswer` calls and timer ticks (restarts are allowed as well) in
which the round is started and not over, `currentIndex` lies in `[0, 26)`
and the letter at `currentIndex` has status pending or pass. -/
theorem current_letter_in_play (s0 : State) (events : List Event)
    (h1 : (run (startGame s0) events).gameStarted = true)
    (h2 : (run (startGame s0) events).gameOver = false) :
    (run (startGame s0) events).currentIndex < 26 ∧
    ((run (startGame s0) events).letterStatus
        (letters[(run (startGame s0) events).currentIndex]?) = some Status.pending ∨
      (run (startGame s0) events).letterStatus
        (letters[(run (startGame s0) events).currentIndex]?) = some Status.pass) := by
  have _ := h1
  obtain ⟨_, hc, hp⟩ := (inv_run events _ (inv_startGame s0)).1 h2
  refine ⟨hc, ?_⟩
  simpa [isPendingOrPass] using hp

/-- C4, at a concrete input: pass on A, a tick, correct on B, pass on C. -/
theorem current_letter_in_play_witness :
    (run (startGame initialState)
      [Event.submitAnswer Answer.pass, Event.timerTick, Event.submitAnswer Answer.correct,
        Event.submitAnswer Answer.pass]).currentIndex < 26 :=
  (current_letter_in_play initialState
    [Event.submitAnswer Answer.pass, Event.timerTick, Event.submitAnswer Answer.correct,
      Event.submitAnswer Answer.pass] (by decide) (by decide)).1

theorem writeVerdictSpec_eq_setStatus (ls : LetterStatus) (key : Option Char) (a : Answer) :
    writeVerdictSpec ls key a = setStatus ls key a := by
  funext k
  cases a <;> rfl

theorem onPressAnswer_letterStatus (s : State) (a : Answer) (h1 : s.gameStarted = true)
    (h2 : s.gameOver = false) :
    (onPressAnswer s a).letterStatus
      = setStatus s.letterStatus (letters[s.currentIndex]?) a := by
  simp [onPressAnswer, h1, h2]

/-- C10. `onPressAnswer` runs `advanceToNextLetter` unconditionally and on
the status object as it was before the verdict is written; yet in every
state reachable from a freshly started round (by answers, ticks and
restarts) that is started and not over, and for every verdict, it yields the
state that the reference submission yields (write the verdict, set over if
no letter is pending or pass, otherwise advance over the updated object
from `(currentIndex + 1) mod 26`, keeping `currentIndex` on -1).  The
status written is spelled out: the current letter gets the status of the
verdict and every other entry keeps its status.  The advance call of
`onPressAnswer` does not return -1. -/
theorem onPressAnswer_eq_reference (s0 : State) (events : List Event) (answer : Answer)
    (h1 : (run (startGame s0) events).gameStarted = true)
    (h2 : (run (startGame s0) events).gameOver = false) :
    onPressAnswer (run (startGame s0) events) answer
        = submitAnswerSpec (run (startGame s0) events) answer ∧
    (onPressAnswer (run (startGame s0) events) answer).letterStatus
        (letters[(run (startGame s0) events).currentIndex]?)
      = some (match answer with
          | Answer.correct => Status.correct
          | Answer.incorrect => Status.incorrect
          | Answer.pass => Status.pass) ∧
    (∀ key : Option Char, key ≠ letters[(run (startGame s0) events).currentIndex]? →
      (onPressAnswer (run (startGame s0) events) answer).letterStatus key
        = (run (startGame s0) events).letterStatus key) ∧
    advanceToNextLetter (run (startGame s0) events).letterStatus
        (((run (startGame s0) events).currentIndex + 1) % letters.length) ≠ -1 := by
  have hinv := inv_run events _ (inv_startGame s0)
  generalize run (startGame s0) events = s at *
  obtain ⟨_, hc, hp⟩ := hinv.1 h2
  obtain ⟨r, hr26, hr, hrplay, hronly, hsame⟩ :=
    advance_after_current s.letterStatus s.currentIndex hc hp
  have hne : ¬ ((r : Int) = -1) := by omega
  have hagree : ∀ i, i < 26 → i ≠ s.currentIndex →
      (playable (setStatus s.letterStatus (letters[s.currentIndex]?) answer) i ↔
        playable s.letterStatus i) :=
    fun i hi hic => playable_setStatus_ne _ _ _ answer hi hic
  refine ⟨?_, ?_, ?_, ?_⟩
  · cases hhas : hasPendingOrPass (setStatus s.letterStatus (letters[s.currentIndex]?) answer) with
    | false =>
      have hnone := (hasPendingOrPass_false_iff _).mp hhas
      have hrc : r = s.currentIndex := by
        by_contra hrc
        exact hnone r hr26 ((hagree r hr26 hrc).mpr hrplay)
      simp [onPressAnswer, submitAnswerSpec, writeVerdictSpec_eq_setStatus, h1, h2, hhas,
        letters_length, hr, hne, hrc]
    | true =>
      have hr2 := hsame _ hagree (by
        intro hrc
        obtain ⟨i, hi, hiplay⟩ := (hasPendingOrPass_iff _).mp hhas
        by_cases hic : i = s.currentIndex
        · rw [hic] at hiplay
          exact hiplay
        · exact absurd ((hagree i hi hic).mp hiplay) (hronly hrc i hi hic))
      simp [onPressAnswer, submitAnswerSpec, writeVerdictSpec_eq_setStatus, h1, h2, hhas,
        letters_length, hr, hr2, hne]
  · rw [onPressAnswer_letterStatus s answer h1 h2]
    unfold setStatus
    rw [if_pos rfl]
    cases answer <;> rfl
  · intro key hkey
    rw [onPressAnswer_letterStatus s answer h1 h2]
    unfold setStatus
    rw [if_neg hkey]
  · rw [letters_length, hr]
    exact hne

set_option maxRecDepth 100000 in
/-- C10, at a concrete input: the 26th answer of a round whose first
letter was passed, where the scan wraps round to index 0; the answer
incorrect is written on the current letter, Z. -/
theorem onPressAnswer_eq_reference_witness :
    onPressAnswer (run (startGame initialState)
        (Event.submitAnswer Answer.pass ::
          List.replicate 24 (Event.submitAnswer Answer.correct))) Answer.incorrect
      = submitAnswerSpec (run (startGame initialState)
        (Event.submitAnswer Answer.pass ::
          List.replicate 24 (Event.submitAnswer Answer.correct))) Answer.incorrect ∧
    (onPressAnswer (run (startGame initialState)
        (Event.submitAnswer Answer.pass ::
          List.replicate 24 (Event.submitAnswer Answer.correct))) Answer.incorrect).letterStatus
        (letters[(run (startGame initialState)
          (Event.submitAnswer Answer.pass ::
            List.replicate 24 (Event.submitAnswer Answer.correct))).currentIndex]?)
      = some Status.incorrect :=
  have h := onPressAnswer_eq_reference initialState
    (Event.submitAnswer Answer.pass :: List.replicate 24 (Event.submitAnswer Answer.correct))
    Answer.incorrect (by decide) (by decide)
  ⟨h.1, h.2.1⟩

/-! ## A first lap in forward order -/

theorem statusAfter_concat_lt (as : List Answer) (a : Answer) (i : Nat) (h : i < as.length) :
    statusAfter (as ++ [a]) i = statusAfter as i := by
  unfold statusAfter
  rw [List.getElem?_append_left h]

theorem statusAfter_concat_length (as : List Answer) (a : Answer) :
    statusAfter (as ++ [a]) as.length = a.toStatus := by
  unfold statusAfter
  rw [List.getElem?_concat_length]

theorem statusAfter_of_le (as : List Answer) (i : Nat) (h : as.length ≤ i) :
    statusAfter as i = Status.pending := by
  unfold statusAfter
  rw [List.getElem?_eq_none h]

/-- Writing the answer for the letter at position `as.length`. -/
theorem setStatus_statusAfter (ls : LetterStatus) (as : List Answer) (a : Answer)
    (h : ∀ i, i < 26 → ls (letters[i]?) = some (statusAfter as i)) :
    ∀ i, i < 26 →
      setStatus ls (letters[as.length]?) a (letters[i]?) = some (statusAfter (as ++ [a]) i) := by
  intro i hi
  unfold setStatus
  by_cases hin : i = as.length
  · subst hin
    rw [if_pos rfl, statusAfter_concat_length]
  · have hkey : letters[i]? ≠ letters[as.length]? := fun hk =>
      hin (List.getElem?_inj (by rw [letters_length]; exact hi) letters_nodup hk)
    rw [if_neg hkey, h i hi]
    rcases Nat.lt_or_ge i as.length with hlt | hge
    · rw [statusAfter_concat_lt as a i hlt]
    · rw [statusAfter_of_le as i hge, statusAfter_of_le (as ++ [a]) i (by simp; omega)]

theorem initial_statusAfter :
    ∀ i, i < 26 → initialLetterStatus (letters[i]?) = some (statusAfter [] i) := by
  decide

/-- After at most 25 answers to a freshly started round, whatever they
are, the answers have gone to the letters 0, 1, 2, ... in order and the
current letter is the next one. -/
theorem submitAll_first_lap (s0 : State) (as : List Answer) :
    as.length ≤ 25 →
      (submitAll (startGame s0) as).gameStarted = true ∧
      (submitAll (startGame s0) as).gameOver = false ∧
      (submitAll (startGame s0) as).currentIndex = as.length ∧
      ∀ i, i < 26 →
        (submitAll (startGame s0) as).letterStatus (letters[i]?) = some (statusAfter as i) := by
  induction as using List.reverseRecOn with
  | nil =>
    intro _
    exact ⟨rfl, rfl, rfl, initial_statusAfter⟩
  | append_singleton as a ih =>
    intro hlen
    have hlen2 : as.length ≤ 24 := by
      rw [List.length_append] at hlen
      simpa using hlen
    obtain ⟨h1, h2, hcur, hst⟩ := ih (by omega)
    rw [submitAll_concat]
    generalize submitAll (startGame s0) as = s at *
    have hnext : playable s.letterStatus ((s.currentIndex + 1) % 26 + 0) := by
      have hmod : (s.currentIndex + 1) % 26 + 0 = as.length + 1 := by omega
      rw [hmod]
      unfold playable
      rw [hst _ (by omega), statusAfter_of_le as _ (by omega)]
      rfl
    have hr := advanceToNextLetter_eq_of_first s.letterStatus ((s.currentIndex + 1) % 26) 0
      (Nat.mod_lt _ (by omega)) (by rw [Nat.mod_eq_of_lt (by omega)]; exact hnext)
      (fun j hj => absurd hj (Nat.not_lt_zero j))
    have hval : ((s.currentIndex + 1) % 26 + 0) % 26 = as.length + 1 := by omega
    rw [hval] at hr
    obtain ⟨fl, fc, fo, _, fs⟩ := onPressAnswer_fields s a h1 h2 _ hr
    have hnew := setStatus_statusAfter s.letterStatus as a hst
    rw [← hcur] at hnew
    have hhas : hasPendingOrPass (setStatus s.letterStatus (letters[s.currentIndex]?) a)
        = true := by
      rw [hasPendingOrPass_iff]
      refine ⟨as.length + 1, by omega, ?_⟩
      unfold playable
      rw [hnew _ (by omega), statusAfter_of_le _ _ (by simp)]
      rfl
    refine ⟨fs, ?_, ?_, ?_⟩
    · rw [fo, hhas]; rfl
    · rw [fc]; simp
    · rw [fl]; exact hnew

/-- C7. For every `k` in `[0, 26)`: from a freshly started round, 26 answers
of which the one for the letter at index `k` is pass and all the others are
correct or incorrect go to the letters 0, 1, ..., 25 in forward order;
after them `currentIndex = k`, the letter at index `k` has status pass,
every other letter is correct or incorrect, and the round is not over; one
further correct or incorrect answer then ends the round. -/
theorem passed_letter_is_last_in_play (s0 : State) (k : Nat) (hk : k < 26)
    (answers : List Answer) (hlen : answers.length = 26)
    (hpass : answers[k]? = some Answer.pass)
    (hterm : ∀ i, i < 26 → i ≠ k → (answers[i]?).map Answer.isTerminal = some true) :
    (∀ j, j < 26 → (submitAll (startGame s0) (answers.take j)).currentIndex = j) ∧
    (∀ i, i < 26 → (submitAll (startGame s0) answers).letterStatus (letters[i]?)
        = (answers[i]?).map Answer.toStatus) ∧
    (submitAll (startGame s0) answers).currentIndex = k ∧
    (submitAll (startGame s0) answers).letterStatus (letters[k]?) = some Status.pass ∧
    (∀ i, i < 26 → i ≠ k →
      (submitAll (startGame s0) answers).letterStatus (letters[i]?) = some Status.correct ∨
      (submitAll (startGame s0) answers).letterStatus (letters[i]?) = some Status.incorrect) ∧
    (submitAll (startGame s0) answers).gameOver = false ∧
    ∀ v : Answer, v.isTerminal = true →
      (onPressAnswer (submitAll (startGame s0) answers) v).gameOver = true := by
  have hlap : ∀ j, j < 26 → (submitAll (startGame s0) (answers.take j)).currentIndex = j := by
    intro j hj
    have hl : (answers.take j).length = j := by
      rw [List.length_take, hlen]; omega
    have := (submitAll_first_lap s0 (answers.take j) (by omega)).2.2.1
    rw [this, hl]
  -- the status that each answer leaves on its letter
  have hstat : ∀ i, i < 26 → i ≠ k →
      statusAfter answers i = Status.correct ∨ statusAfter answers i = Status.incorrect := by
    intro i hi hik
    have h := hterm i hi hik
    unfold statusAfter
    cases hget : answers[i]? with
    | none => rw [hget] at h; simp at h
    | some a =>
      rw [hget] at h
      cases a <;> simp [Answer.isTerminal, Answer.toStatus] at h ⊢
  have hstatk : statusAfter answers k = Status.pass := by
    unfold statusAfter
    rw [hpass]
    rfl
  have hmap : ∀ i, i < 26 → some (statusAfter answers i) = (answers[i]?).map Answer.toStatus := by
    intro i hi
    unfold statusAfter
    rw [List.getElem?_eq_getElem (by omega)]
    rfl
  -- split off the 26th answer
  rcases List.eq_nil_or_concat answers with hnil | ⟨as, a, hcat⟩
  · rw [hnil] at hlen
    simp at hlen
  rw [List.concat_eq_append] at hcat
  subst hcat
  have hlen25 : as.length = 25 := by
    rw [List.length_append] at hlen
    simpa using hlen
  obtain ⟨h1, h2, hcur, hst⟩ := submitAll_first_lap s0 as (by omega)
  rw [submitAll_concat]
  generalize submitAll (startGame s0) as = s at *
  -- the scan from index 0 over the statuses before the 26th answer stops at k
  have hold : ∀ i, i < 26 → i ≠ 25 → statusAfter as i = statusAfter (as ++ [a]) i := by
    intro i hi hne
    rw [statusAfter_concat_lt as a i (by omega)]
  have hplayk : playable s.letterStatus ((0 + k) % 26) := by
    have hmod : (0 + k) % 26 = k := by omega
    rw [hmod]
    unfold playable
    rw [hst k hk]
    by_cases hk25 : k = 25
    · rw [statusAfter_of_le as k (by omega)]; rfl
    · rw [hold k hk hk25, hstatk]; rfl
  have hbefore : ∀ j, j < k → ¬ playable s.letterStatus ((0 + j) % 26) := by
    intro j hj
    have hmod : (0 + j) % 26 = j := by omega
    rw [hmod]
    unfold playable
    rw [hst j (by omega), hold j (by omega) (by omega)]
    rcases hstat j (by omega) (by omega) with h | h <;> rw [h] <;> decide
  have hr := advanceToNextLetter_eq_of_first s.letterStatus 0 k (by omega) hplayk hbefore
  have hstart : (s.currentIndex + 1) % 26 = 0 := by omega
  have hval : (0 + k) % 26 = k := by omega
  rw [hval, ← hstart] at hr
  obtain ⟨fl, fc, fo, ft, fs⟩ := onPressAnswer_fields s a h1 h2 k hr
  have hnew := setStatus_statusAfter s.letterStatus as a hst
  rw [← hcur, ← fl] at hnew
  have hnewk : (onPressAnswer s a).letterStatus (letters[k]?) = some Status.pass := by
    rw [hnew k hk, hstatk]
  have hothers : ∀ i, i < 26 → i ≠ k →
      (onPressAnswer s a).letterStatus (letters[i]?) = some Status.correct ∨
      (onPressAnswer s a).letterStatus (letters[i]?) = some Status.incorrect := by
    intro i hi hik
    rw [hnew i hi]
    rcases hstat i hi hik with h | h <;> rw [h] <;> simp
  have hover : (onPressAnswer s a).gameOver = false := by
    rw [fo, ← fl]
    have : hasPendingOrPass (onPressAnswer s a).letterStatus = true := by
      rw [hasPendingOrPass_iff]
      refine ⟨k, hk, ?_⟩
      unfold playable
      rw [hnewk]
      rfl
    rw [this]
    rfl
  refine ⟨hlap, ?_, fc, hnewk, hothers, hover, ?_⟩
  · intro i hi
    rw [hnew i hi, hmap i hi]
  · intro v hv
    rw [onPressAnswer_gameOver _ v fs hover, fc]
    have : hasPendingOrPass (setStatus (onPressAnswer s a).letterStatus (letters[k]?) v)
        = false := by
      rw [hasPendingOrPass_false_iff]
      intro i hi
      by_cases hik : i = k
      · rw [hik, playable_setStatus_self]
        intro hvp
        rw [hvp] at hv
        exact absurd hv (by decide)
      · rw [playable_setStatus_ne _ _ _ v hi hik]
        unfold playable
        rcases hothers i hi hik with h | h <;> rw [h] <;> decide
    rw [this]
    rfl

set_option maxRecDepth 100000 in
/-- C7, at a concrete input: scenario B (`k = 0`, all other answers correct). -/
theorem passed_letter_is_last_in_play_witness :
    (submitAll (startGame initialState) scenarioB).currentIndex = 0 ∧
    (submitAll (startGame initialState) scenarioB).letterStatus (letters[0]?)
      = some Status.pass ∧
    (submitAll (startGame initialState) scenarioB).gameOver = false ∧
    (onPressAnswer (submitAll (startGame initialState) scenarioB) Answer.correct).gameOver
      = true :=
  have h := passed_letter_is_last_in_play initialState 0 (by decide) scenarioB (by decide)
    (by decide) (by decide)
  ⟨h.2.2.1, h.2.2.2.1, h.2.2.2.2.2.1, h.2.2.2.2.2.2 Answer.correct rfl⟩

end RoscoScreen
